import Mathlib

/-
Verification of the scalar workspace import engine (`importSpecToWorkspace`).

The security-scheme declaration schemas (zod) are present in the sources and
are embedded directly.  The import transform itself is exercised only through
its test suite in the sources, so its components are modelled from the
specification (reference resolver, parameter merger, security resolver,
security-scheme extractor with authentication prefill, tag graph builder,
server resolver, workspace assembler) and verified against the claimed
properties.
-/

namespace ScalarImport

-- =========================================================================
-- PART 1: HTTP security scheme field parsing (embedded from the source file
-- declaring `oasSecuritySchemeHttp` / `securityHttpSchema`).
-- =========================================================================

/-- ASCII lowercasing of a single character, the behaviour of JavaScript
`toLowerCase` on the ASCII range used by scheme names. -/
def lowerChar (c : Char) : Char :=
  if c.toNat ≥ 65 ∧ c.toNat ≤ 90 then Char.ofNat (c.toNat + 32) else c

/-- ASCII lowercasing of a string (JavaScript `String.prototype.toLowerCase`
restricted to ASCII, which is all the zod pipeline ever sees for scheme
names). -/
def lowerString (s : String) : String :=
  String.mk (s.data.map lowerChar)

/-- Embeds the `scheme` field of `oasSecuritySchemeHttp`:
`z.string().toLowerCase().pipe(z.enum(['basic', 'bearer'])).optional().default('basic')`.
`none` models an absent field (default applies); a present string is
lowercased and then validated against the enum, `none` output models a zod
parse failure. -/
def parseHttpSchemeField : Option String → Option String
  | none => some "basic"
  | some s =>
    let l := lowerString s
    if l = "basic" ∨ l = "bearer" then some l else none

/-- Embeds the `bearerFormat` field of `oasSecuritySchemeHttp`:
`z.union([z.literal('JWT'), z.string()]).optional().default('JWT')`.
Any present string parses to itself; an absent field defaults to `"JWT"`. -/
def parseBearerFormatField : Option String → String
  | none => "JWT"
  | some s => s

-- =========================================================================
-- PART 2: Reference resolver.
-- =========================================================================

/-- A child of a schema node in the raw document: either a plain value or an
internal pointer-style reference to a named schema. -/
inductive SchemaChild where
  | leaf (v : Nat)
  | ref (target : String)
deriving DecidableEq

/-- The raw document graph seen by the reference resolver: named schema
definitions, each a list of children that may point back into the
definitions (possibly cyclically). -/
structure RefDoc where
  defs : List (String × List SchemaChild)
deriving DecidableEq

/-- Resolver state: the visited-set mapping each reference path to the
identity allocated for its node, the next fresh identity, and the resolved
node arena (identity to resolved child identities). -/
structure ResolveState where
  assign : List (String × Nat)
  nextId : Nat
  nodes : List (Nat × List Nat)
deriving DecidableEq

/-- Look a reference path up in the visited-set. -/
def lookupAssign (st : ResolveState) (name : String) : Option Nat :=
  (st.assign.find? (fun e => e.1 = name)).map (·.2)

/-- Look a schema definition up in the raw document. -/
def findDef (defs : List (String × List SchemaChild)) (name : String) :
    Option (List SchemaChild) :=
  (defs.find? (fun e => e.1 = name)).map (·.2)

/-- Modelled from the spec: resolution of the children of one schema node
(section 4.1); the repository's resolver implementation is not among the
sources, only its tests.  Leaves are allocated fresh node identities;
references are resolved through the supplied resolver `f`. -/
def resolveChildren (f : String → ResolveState → Option (Nat × ResolveState)) :
    List SchemaChild → ResolveState → Option (List Nat × ResolveState)
  | [], st => some ([], st)
  | .leaf _ :: rest, st =>
    match resolveChildren f rest ⟨st.assign, st.nextId + 1, (st.nextId, []) :: st.nodes⟩ with
    | none => none
    | some (ids, st'') => some (st.nextId :: ids, st'')
  | .ref t :: rest, st =>
    match f t st with
    | none => none
    | some (cid, st') =>
      match resolveChildren f rest st' with
      | none => none
      | some (ids, st'') => some (cid :: ids, st'')

/-- Modelled from the spec: the cycle-safe reference resolver of
`importSpecToWorkspace` (section 4.1); the implementation is not among the
sources, only its circular-reference tests.  On first visit the target's
identity is registered in the visited-set *before* recursing into its
children, so a re-entrant reference receives the already-allocated identity.
Recursion is expressed with explicit fuel; the termination theorem shows a
fuel of one more than the number of definitions always suffices. -/
def resolveRef (doc : RefDoc) : Nat → String → ResolveState → Option (Nat × ResolveState)
  | 0, name, st =>
    match lookupAssign st name with
    | some id => some (id, st)
    | none => none
  | fuel + 1, name, st =>
    match lookupAssign st name with
    | some id => some (id, st)
    | none =>
      match resolveChildren (resolveRef doc fuel) ((findDef doc.defs name).getD [])
          ⟨(name, st.nextId) :: st.assign, st.nextId + 1, st.nodes⟩ with
      | none => none
      | some (cids, st2) =>
        some (st.nextId, ⟨st2.assign, st2.nextId, (st.nextId, cids) :: st2.nodes⟩)

/-- The empty resolver state used at the start of an import. -/
def initResolveState : ResolveState := ⟨[], 0, []⟩

/-- Reference paths of the document not yet registered in the visited-set;
its length is the resolver's termination measure. -/
def unassignedKeys (doc : RefDoc) (st : ResolveState) : List String :=
  (doc.defs.map Prod.fst).dedup.filter (fun n => (lookupAssign st n).isNone)

-- =========================================================================
-- PART 3: Workspace data model (modelled from the spec, section 3).
-- =========================================================================

/-- A security requirement object: scheme name key to required scopes; the
empty list models the explicit empty requirement object. -/
abbrev SecReq := List (String × List String)

/-- An OpenAPI parameter as consumed by the parameter merger. -/
structure Param where
  name : String
  location : String
  required : Bool
  description : String
deriving DecidableEq

/-- The de-duplication identity of a parameter: its (name, location) pair. -/
def paramKey (p : Param) : String × String := (p.name, p.location)

/-- An operation (one HTTP method under a path item). -/
structure Operation where
  tags : List String
  security : Option (List SecReq)
  parameters : List Param
  operationId : Option String
deriving DecidableEq

/-- A path item: path-level parameters plus its operations keyed by method. -/
structure PathItem where
  parameters : List Param
  operations : List (String × Operation)
deriving DecidableEq

/-- A declared tag. -/
structure TagDef where
  name : String
  description : String
deriving DecidableEq

/-- A declared server: optional url plus variable defaults. -/
structure ServerDef where
  url : Option String
  vars : List (String × String)
deriving DecidableEq

/-- Scope declarations of an OAuth2 flow as they appear in the source
document: either a list of scope names or a mapping from scope name to
description. -/
inductive ScopesInput where
  | list (names : List String)
  | mapping (entries : List (String × String))
deriving DecidableEq

/-- A declared OAuth2 flow. -/
structure FlowDef where
  ftype : String
  authorizationUrl : String
  tokenUrl : String
  refreshUrl : String
  scopes : ScopesInput
  defaultClientId : Option String
deriving DecidableEq

/-- A declared security scheme definition (the four OpenAPI variants). -/
inductive SchemeDef where
  | apiKey (description name location : String)
  | http (description scheme bearerFormat : String)
  | oauth2 (description : String) (flows : List (String × FlowDef))
  | openIdConnect (description url : String)
deriving DecidableEq

/-- A navigable document, the typed view the import engine works on. -/
structure Doc where
  infoTitle : String
  infoDescription : String
  infoVersion : String
  paths : List (String × PathItem)
  tags : List TagDef
  servers : List ServerDef
  security : List SecReq
  securitySchemes : List (String × SchemeDef)
deriving DecidableEq

-- Output entities.

/-- An extracted OAuth2 flow with value slots. -/
structure Flow where
  ftype : String
  authorizationUrl : String
  tokenUrl : String
  refreshUrl : String
  scopes : List (String × String)
  selectedScopes : List String
  clientId : String
  token : String
  username : String
  password : String
deriving DecidableEq

/-- The variant-specific payload of an extracted security scheme. -/
inductive SchemeVal where
  | apiKey (name location value : String)
  | http (scheme bearerFormat username password token : String)
  | oauth2 (flows : List (String × Flow))
  | openIdConnect (url : String)
deriving DecidableEq

/-- An extracted security scheme entity. -/
structure Scheme where
  uid : Nat
  nameKey : String
  description : String
  val : SchemeVal
deriving DecidableEq

/-- An extracted server entity. -/
structure Server where
  uid : Nat
  url : String
  vars : List (String × String)
deriving DecidableEq

/-- An extracted request entity (one path+method operation). -/
structure Request where
  uid : Nat
  path : String
  method : String
  parameters : List Param
  security : List SecReq
  tags : List String
  operationId : Option String
deriving DecidableEq

/-- A tag entity. -/
structure Tag where
  uid : Nat
  name : String
  description : String
  children : List Nat
deriving DecidableEq

/-- The collection root entity. -/
structure Collection where
  uid : Nat
  children : List Nat
  selectedSecuritySchemeUids : List Nat
  infoTitle : String
  infoDescription : String
  infoVersion : String
deriving DecidableEq

/-- The successful output of an import. -/
structure Workspace where
  collection : Collection
  tags : List Tag
  requests : List Request
  servers : List Server
  securitySchemes : List Scheme
deriving DecidableEq

-- Caller-supplied options.

/-- Supplied apiKey prefill values. -/
structure ApiKeyAuth where
  token : String
deriving DecidableEq

/-- Supplied http basic prefill values. -/
structure HttpBasicAuth where
  username : String
  password : String
deriving DecidableEq

/-- Supplied http bearer prefill values. -/
structure HttpBearerAuth where
  token : String
deriving DecidableEq

/-- Supplied http prefill values. -/
structure HttpAuth where
  basic : Option HttpBasicAuth
  bearer : Option HttpBearerAuth
deriving DecidableEq

/-- Supplied oauth2 prefill values. -/
structure OauthAuth where
  clientId : Option String
  scopes : Option (List String)
  accessToken : Option String
  username : Option String
  password : Option String
deriving DecidableEq

/-- The `authentication` option: per-scheme-type prefill values plus the
preferred scheme name key. -/
structure AuthOptions where
  apiKey : Option ApiKeyAuth
  http : Option HttpAuth
  oauth2 : Option OauthAuth
  preferredSecurityScheme : Option String
deriving DecidableEq

/-- The options accepted by `importSpecToWorkspace`.  `ambientOrigin` models
the execution context's origin (`window.location.origin`) used as the
fallback base for relative server urls. -/
structure ImportOptions where
  authentication : Option AuthOptions
  setCollectionSecurity : Bool
  baseServerURL : Option String
  servers : Option (List ServerDef)
  ambientOrigin : Option String
deriving DecidableEq

-- =========================================================================
-- PART 4: The import pipeline (modelled from the spec, sections 4.2-4.7;
-- the implementation is exercised only through its tests in the sources).
-- =========================================================================

/-- Modelled from the spec: normalization of OAuth2 scope declarations -
scopes declared as a list are normalized to a mapping from scope name to
empty description; mapping-shaped scopes are kept as they are. -/
def normalizeScopes : ScopesInput → List (String × String)
  | .list names => names.map (fun s => (s, ""))
  | .mapping entries => entries

/-- Modelled from the spec: extraction of one OAuth2 flow - value slots start
empty, the scopes are normalized, and the default-client-id extension seeds
the client identifier slot. -/
def extractFlow (fd : FlowDef) : Flow :=
  ⟨fd.ftype, fd.authorizationUrl, fd.tokenUrl, fd.refreshUrl,
   normalizeScopes fd.scopes, [], fd.defaultClientId.getD "", "", "", ""⟩

/-- Modelled from the spec: authentication prefill of one OAuth2 flow -
supplied client id, selected scopes, access token and credentials are copied
into the flow's value slots. -/
def prefillFlow (o : OauthAuth) (f : Flow) : Flow :=
  ⟨f.ftype, f.authorizationUrl, f.tokenUrl, f.refreshUrl, f.scopes,
   o.scopes.getD f.selectedScopes, o.clientId.getD f.clientId,
   o.accessToken.getD f.token, o.username.getD f.username,
   o.password.getD f.password⟩

/-- Modelled from the spec: authentication prefill of one scheme's value
slots, keyed by scheme type; apiKey and http prefill data applies to every
scheme of that type. -/
def prefillVal (a : AuthOptions) : SchemeVal → SchemeVal
  | .apiKey n l v =>
    match a.apiKey with
    | some ak => .apiKey n l ak.token
    | none => .apiKey n l v
  | .http sch bf u p t =>
    match a.http with
    | none => .http sch bf u p t
    | some h =>
      if sch = "basic" then
        match h.basic with
        | some b => .http sch bf b.username b.password t
        | none => .http sch bf u p t
      else if sch = "bearer" then
        match h.bearer with
        | some br => .http sch bf u p br.token
        | none => .http sch bf u p t
      else .http sch bf u p t
  | .oauth2 flows =>
    match a.oauth2 with
    | some o => .oauth2 (flows.map (fun kf => (kf.1, prefillFlow o kf.2)))
    | none => .oauth2 flows
  | .openIdConnect u => .openIdConnect u

/-- Modelled from the spec: the optional authentication-prefill step applied
to an extracted scheme. -/
def applyAuth (auth : Option AuthOptions) (s : Scheme) : Scheme :=
  match auth with
  | none => s
  | some a => ⟨s.uid, s.nameKey, s.description, prefillVal a s.val⟩

/-- Modelled from the spec: extraction of one declared security scheme into a
typed entity with empty value slots and `nameKey` equal to its declaration
key. -/
def extractScheme (key : String) (d : SchemeDef) (uid : Nat) : Scheme :=
  match d with
  | .apiKey descr n l => ⟨uid, key, descr, .apiKey n l ""⟩
  | .http descr sch bf => ⟨uid, key, descr, .http sch bf "" "" ""⟩
  | .oauth2 descr flows =>
    ⟨uid, key, descr, .oauth2 (flows.map (fun kf => (kf.1, extractFlow kf.2)))⟩
  | .openIdConnect descr u => ⟨uid, key, descr, .openIdConnect u⟩

/-- Modelled from the spec: extraction plus prefill of all declared security
schemes, threading the identifier allocator. -/
def buildSchemes (auth : Option AuthOptions) :
    List (String × SchemeDef) → Nat → List Scheme × Nat
  | [], n => ([], n)
  | kd :: rest, n =>
    let s := applyAuth auth (extractScheme kd.1 kd.2 n)
    let p := buildSchemes auth rest (n + 1)
    (s :: p.1, p.2)

/-- Find the first extracted scheme carrying the given name key. -/
def findScheme (k : String) : List Scheme → Option Scheme
  | [] => none
  | s :: rest => if s.nameKey = k then some s else findScheme k rest

/-- Whether a url string is relative (begins with a slash). -/
def startsSlash (s : String) : Bool :=
  match s.data with
  | c :: _ => c = '/'
  | [] => false

/-- Modelled from the spec: resolution of one declared server url - an
absolute url is kept as-is, a relative url (beginning with a slash) is
resolved against the explicit base option, falling back to the ambient
origin; an absent url resolves to the base (or ambient origin) itself. -/
def resolveServerUrl (base ambient : Option String) : Option String → String
  | none =>
    match base with
    | some b => b
    | none => ambient.getD ""
  | some url =>
    if startsSlash url then
      match base with
      | some b => b ++ url
      | none =>
        match ambient with
        | some o => o ++ url
        | none => url
    else url

/-- Modelled from the spec: extraction of the server list, threading the
identifier allocator. -/
def buildServers (base ambient : Option String) :
    List ServerDef → Nat → List Server × Nat
  | [], n => ([], n)
  | d :: rest, n =>
    let s : Server := ⟨n, resolveServerUrl base ambient d.url, d.vars⟩
    let p := buildServers base ambient rest (n + 1)
    (s :: p.1, p.2)

/-- Modelled from the spec: the security resolver - an operation-level
security list (even an empty one, or one containing the empty requirement
object) fully replaces the global list; only an absent operation-level field
inherits the global list. -/
def resolveSecurity (global : List SecReq) : Option (List SecReq) → List SecReq
  | some l => l
  | none => global

/-- Modelled from the spec: insertion of one operation-level parameter into
the list built so far - replace in place when an entry with the same
(name, location) key is already included, append otherwise. -/
def upsertParam (acc : List Param) (p : Param) : List Param :=
  if ∃ q ∈ acc, paramKey q = paramKey p then
    acc.map (fun q => if paramKey q = paramKey p then p else q)
  else acc ++ [p]

/-- Modelled from the spec: the parameter merger - start from the path-level
parameters in declared order and fold the operation-level parameters over
them in declared order. -/
def mergeParams (pathPs : List Param) : List Param → List Param
  | [] => pathPs
  | p :: rest => mergeParams (upsertParam pathPs p) rest

/-- One operation of the document together with its owning path item. -/
structure OpEntry where
  path : String
  item : PathItem
  method : String
  op : Operation
deriving DecidableEq

/-- The operation entries of one path item. -/
def pathOpEntries (p : String) (it : PathItem) : List OpEntry :=
  it.operations.map (fun mo => ⟨p, it, mo.1, mo.2⟩)

/-- All operation entries of the document, in declared order. -/
def opEntries : List (String × PathItem) → List OpEntry
  | [] => []
  | pi :: rest => pathOpEntries pi.1 pi.2 ++ opEntries rest

/-- Modelled from the spec: extraction of one Request from an operation -
path-level and operation-level parameters are merged, and the security
resolver reconciles the operation-level and global security lists. -/
def mkRequest (uid : Nat) (global : List SecReq) (e : OpEntry) : Request :=
  ⟨uid, e.path, e.method, mergeParams e.item.parameters e.op.parameters,
   resolveSecurity global e.op.security, e.op.tags, e.op.operationId⟩

/-- Modelled from the spec: extraction of all Requests, threading the
identifier allocator. -/
def buildRequests (global : List SecReq) : List OpEntry → Nat → List Request × Nat
  | [], n => ([], n)
  | e :: rest, n =>
    let r := mkRequest n global e
    let p := buildRequests global rest (n + 1)
    (r :: p.1, p.2)

/-- The names of the tag entities built so far. -/
def tagNames (ts : List Tag) : List String := ts.map (·.name)

/-- Modelled from the spec: registration of one tag name for a request - if a
Tag with that name already exists the request identifier is appended to its
children, otherwise a Tag with that name is auto-created first. -/
def addTagName (ts : List Tag) (next : Nat) (ruid : Nat) (nm : String) :
    List Tag × Nat :=
  if ∃ t ∈ ts, t.name = nm then
    (ts.map (fun t =>
      if t.name = nm then ⟨t.uid, t.name, t.description, t.children ++ [ruid]⟩
      else t), next)
  else (ts ++ [⟨next, nm, "", [ruid]⟩], next + 1)

/-- Modelled from the spec: registration of all tag names of one request, in
declared order. -/
def addTagNames (ts : List Tag) (next : Nat) (ruid : Nat) :
    List String → List Tag × Nat
  | [] => (ts, next)
  | nm :: rest =>
    let p := addTagName ts next ruid nm
    addTagNames p.1 p.2 ruid rest

/-- Modelled from the spec: the tag graph builder's pass over all requests. -/
def addRequestsTags (ts : List Tag) (next : Nat) :
    List Request → List Tag × Nat
  | [] => (ts, next)
  | r :: rest =>
    let p := addTagNames ts next r.uid r.tags
    addRequestsTags p.1 p.2 rest

/-- Modelled from the spec: creation of the declared tag entities - a later
declaration with an identical name reuses the existing Tag rather than
creating a second one. -/
def buildDeclaredTags (acc : List Tag) (n : Nat) : List TagDef → List Tag × Nat
  | [] => (acc, n)
  | td :: rest =>
    if ∃ t ∈ acc, t.name = td.name then buildDeclaredTags acc n rest
    else buildDeclaredTags (acc ++ [⟨n, td.name, td.description, []⟩]) (n + 1) rest

/-- The preferred security scheme name requested through the authentication
option, if any. -/
def preferredScheme (opts : ImportOptions) : Option String :=
  match opts.authentication with
  | some a => a.preferredSecurityScheme
  | none => none

/-- Modelled from the spec: the workspace assembler `importSpecToWorkspace`
run on an already-navigable document - orchestrates scheme extraction with
prefill, server resolution, request extraction, the tag graph builder and
the collection root. -/
def importDoc (doc : Doc) (opts : ImportOptions) : Workspace :=
  let schemesP := buildSchemes opts.authentication doc.securitySchemes 0
  let serverDefs := opts.servers.getD doc.servers
  let serversP := buildServers opts.baseServerURL opts.ambientOrigin serverDefs schemesP.2
  let requestsP := buildRequests doc.security (opEntries doc.paths) serversP.2
  let declaredP := buildDeclaredTags [] requestsP.2 doc.tags
  let tagsP := addRequestsTags declaredP.1 declaredP.2 requestsP.1
  let untagged := (requestsP.1.filter (fun r => r.tags.isEmpty)).map (·.uid)
  let selected :=
    if opts.setCollectionSecurity then
      match preferredScheme opts with
      | some k =>
        match findScheme k schemesP.1 with
        | some s => [s.uid]
        | none => []
      | none => []
    else []
  let collection : Collection :=
    ⟨tagsP.2, tagsP.1.map (·.uid) ++ untagged, selected,
     doc.infoTitle, doc.infoDescription, doc.infoVersion⟩
  ⟨collection, tagsP.1, requestsP.1, serversP.1, schemesP.1⟩

-- =========================================================================
-- PART 5: The raw document front end (error handling, section 4.7 / 7).
-- =========================================================================

/-- A raw parsed JSON/YAML value as handed to `importSpecToWorkspace`. -/
inductive RawVal where
  | null
  | bool (b : Bool)
  | num (n : Int)
  | str (s : String)
  | arr (items : List RawVal)
  | obj (fields : List (String × RawVal))

/-- The string carried by a raw value, if any. -/
def asStr : RawVal → Option String
  | .str s => some s
  | _ => none

/-- The fields carried by a raw value, if it is an object. -/
def asObj : RawVal → Option (List (String × RawVal))
  | .obj fs => some fs
  | _ => none

/-- The items carried by a raw value, if it is an array. -/
def asArr : RawVal → Option (List RawVal)
  | .arr xs => some xs
  | _ => none

/-- Look a field up in a raw object's field list. -/
def getField (fs : List (String × RawVal)) (k : String) : Option RawVal :=
  (fs.find? (fun e => e.1 = k)).map (·.2)

/-- A field's string value, with a default for absent or non-string data. -/
def strField (fs : List (String × RawVal)) (k : String) (d : String) : String :=
  ((getField fs k).bind asStr).getD d

/-- Modelled from the spec: tolerant parse of one parameter object. -/
def parseParam (v : RawVal) : Option Param :=
  match asObj v with
  | none => none
  | some fs =>
    some ⟨strField fs "name" "", strField fs "in" "query",
          (getField fs "required").isSome, strField fs "description" ""⟩

/-- Modelled from the spec: tolerant parse of one security requirement
object. -/
def parseSecReq (v : RawVal) : SecReq :=
  match asObj v with
  | none => []
  | some fs =>
    fs.map (fun kv => (kv.1, ((asArr kv.2).getD []).filterMap asStr))

/-- Modelled from the spec: tolerant parse of scope declarations, which may
be a list of names or a mapping. -/
def parseScopes : RawVal → ScopesInput
  | .arr xs => .list (xs.filterMap asStr)
  | .obj fs => .mapping (fs.map (fun kv => (kv.1, (asStr kv.2).getD "")))
  | _ => .mapping []

/-- Modelled from the spec: tolerant parse of one OAuth2 flow object. -/
def parseFlow (ftype : String) (v : RawVal) : FlowDef :=
  match asObj v with
  | none => ⟨ftype, "", "", "", .mapping [], none⟩
  | some fs =>
    ⟨ftype, strField fs "authorizationUrl" "", strField fs "tokenUrl" "",
     strField fs "refreshUrl" "",
     parseScopes ((getField fs "scopes").getD .null),
     (getField fs "x-defaultClientId").bind asStr⟩

/-- Modelled from the spec: tolerant parse of one security scheme
declaration, dispatching on its `type` discriminant. -/
def parseSchemeDef (v : RawVal) : Option SchemeDef :=
  match asObj v with
  | none => none
  | some fs =>
    let descr := strField fs "description" ""
    match strField fs "type" "" with
    | "apiKey" =>
      some (.apiKey descr (strField fs "name" "") (strField fs "in" "header"))
    | "http" =>
      some (.http descr (strField fs "scheme" "basic")
        (strField fs "bearerFormat" "JWT"))
    | "oauth2" =>
      some (.oauth2 descr
        (((getField fs "flows").bind asObj).getD [] |>.map
          (fun kv => (kv.1, parseFlow kv.1 kv.2))))
    | "openIdConnect" =>
      some (.openIdConnect descr (strField fs "openIdConnectUrl" ""))
    | _ => none

/-- Modelled from the spec: tolerant parse of one operation object. -/
def parseOperation (fs : List (String × RawVal)) : Operation :=
  ⟨((getField fs "tags").bind asArr).getD [] |>.filterMap asStr,
   ((getField fs "security").bind asArr).map (·.map parseSecReq),
   ((getField fs "parameters").bind asArr).getD [] |>.filterMap parseParam,
   (getField fs "operationId").bind asStr⟩

/-- The HTTP methods recognised as operations inside a path item. -/
def httpMethods : List String :=
  ["get", "put", "post", "delete", "options", "head", "patch", "trace"]

/-- Modelled from the spec: tolerant parse of one path item object. -/
def parsePathItem (fs : List (String × RawVal)) : PathItem :=
  ⟨((getField fs "parameters").bind asArr).getD [] |>.filterMap parseParam,
   fs.filterMap (fun kv =>
     if kv.1 ∈ httpMethods then
       (asObj kv.2).map (fun o => (kv.1, parseOperation o))
     else none)⟩

/-- Modelled from the spec: tolerant parse of a navigable document; absent or
malformed regions collapse to empty defaults instead of failing. -/
def parseDoc (fs : List (String × RawVal)) : Doc :=
  let info := ((getField fs "info").bind asObj).getD []
  ⟨strField info "title" "", strField info "description" "",
   strField info "version" "",
   ((getField fs "paths").bind asObj).getD [] |>.filterMap
     (fun kv => (asObj kv.2).map (fun o => (kv.1, parsePathItem o))),
   ((getField fs "tags").bind asArr).getD [] |>.filterMap
     (fun v => (asObj v).map (fun o =>
        ⟨strField o "name" "", strField o "description" ""⟩)),
   ((getField fs "servers").bind asArr).getD [] |>.filterMap
     (fun v => (asObj v).map (fun o =>
        ⟨(getField o "url").bind asStr,
         (((getField o "variables").bind asObj).getD []).map
           (fun kv => (kv.1, ((asObj kv.2).map
              (fun vo => strField vo "default" "")).getD ""))⟩)),
   ((getField fs "security").bind asArr).getD [] |>.map parseSecReq,
   (((getField fs "components").bind asObj).bind
      (fun c => (getField c "securitySchemes").bind asObj)).getD []
     |>.filterMap (fun kv => (parseSchemeDef kv.2).map (fun d => (kv.1, d)))⟩

/-- The fatal error kinds of the import. -/
inductive ImportError where
  | invalidDocument
deriving DecidableEq

/-- The discriminated result of an import: the failure variant carries only
the error description and no partial entity collections. -/
inductive ImportResult where
  | ok (ws : Workspace)
  | err (e : ImportError)

/-- Modelled from the spec: the top-level entry point - a root input that is
a navigable object is imported, any other root input is rejected immediately
with the `invalidDocument` fatal error. -/
def importSpecToWorkspace (v : RawVal) (opts : ImportOptions) : ImportResult :=
  match v with
  | .obj fs => .ok (importDoc (parseDoc fs) opts)
  | _ => .err .invalidDocument

-- =========================================================================
-- PART 6: Helper lemmas.
-- =========================================================================

theorem buildRequests_cons (g : List SecReq) (e : OpEntry) (rest : List OpEntry) (n : Nat) :
    buildRequests g (e :: rest) n =
      (mkRequest n g e :: (buildRequests g rest (n + 1)).1,
       (buildRequests g rest (n + 1)).2) := rfl

theorem mem_buildRequests {g : List SecReq} {es : List OpEntry} {r : Request} :
    ∀ {n : Nat}, r ∈ (buildRequests g es n).1 → ∃ e ∈ es, ∃ m, r = mkRequest m g e := by
  induction es with
  | nil => intro n h; simp [buildRequests] at h
  | cons e rest ih =>
    intro n h
    rw [buildRequests_cons] at h
    rcases List.mem_cons.mp h with h | h
    · exact ⟨e, List.mem_cons_self .., n, h⟩
    · obtain ⟨e', he', m, hm⟩ := ih h
      exact ⟨e', List.mem_cons_of_mem _ he', m, hm⟩

theorem mem_opEntries {e : OpEntry} :
    ∀ {ps : List (String × PathItem)}, e ∈ opEntries ps →
      ∃ pi ∈ ps, e.path = pi.1 ∧ e.item = pi.2 ∧ (e.method, e.op) ∈ pi.2.operations := by
  intro ps
  induction ps with
  | nil => intro h; simp [opEntries] at h
  | cons pi rest ih =>
    intro h
    rcases List.mem_append.mp h with h | h
    · obtain ⟨mo, hmo, hmk⟩ := List.mem_map.mp h
      refine ⟨pi, List.mem_cons_self .., ?_⟩
      subst hmk
      exact ⟨rfl, rfl, hmo⟩
    · obtain ⟨pi', hpi', h1, h2, h3⟩ := ih h
      exact ⟨pi', List.mem_cons_of_mem _ hpi', h1, h2, h3⟩

theorem importDoc_requests (doc : Doc) (opts : ImportOptions) :
    (importDoc doc opts).requests =
      (buildRequests doc.security (opEntries doc.paths)
        (buildServers opts.baseServerURL opts.ambientOrigin
          (opts.servers.getD doc.servers)
          (buildSchemes opts.authentication doc.securitySchemes 0).2).2).1 := rfl

theorem importDoc_servers (doc : Doc) (opts : ImportOptions) :
    (importDoc doc opts).servers =
      (buildServers opts.baseServerURL opts.ambientOrigin
        (opts.servers.getD doc.servers)
        (buildSchemes opts.authentication doc.securitySchemes 0).2).1 := rfl

theorem importDoc_schemes (doc : Doc) (opts : ImportOptions) :
    (importDoc doc opts).securitySchemes =
      (buildSchemes opts.authentication doc.securitySchemes 0).1 := rfl

theorem buildServers_map_url (base ambient : Option String) :
    ∀ (defs : List ServerDef) (n : Nat),
      (buildServers base ambient defs n).1.map (·.url) =
        defs.map (fun d => resolveServerUrl base ambient d.url) := by
  intro defs
  induction defs with
  | nil => intro n; rfl
  | cons d rest ih =>
    intro n
    simp only [buildServers, List.map_cons, ih]

theorem resolveServerUrl_relative {u : String} (b : String) (ambient : Option String)
    (h : startsSlash u = true) :
    resolveServerUrl (some b) ambient (some u) = b ++ u := by
  simp [resolveServerUrl, h]

theorem opEntries_complete :
    ∀ (ps : List (String × PathItem)) (pi : String × PathItem)
      (mo : String × Operation), pi ∈ ps → mo ∈ pi.2.operations →
      (⟨pi.1, pi.2, mo.1, mo.2⟩ : OpEntry) ∈ opEntries ps := by
  intro ps
  induction ps with
  | nil => intro pi mo h; simp at h
  | cons hd rest ih =>
    intro pi mo hpi hmo
    rcases List.mem_cons.mp hpi with rfl | hpi
    · exact List.mem_append_left _ (List.mem_map.mpr ⟨mo, hmo, rfl⟩)
    · exact List.mem_append_right _ (ih pi mo hpi hmo)

theorem buildRequests_complete (g : List SecReq) :
    ∀ (es : List OpEntry) (e : OpEntry) (n : Nat), e ∈ es →
      ∃ m, mkRequest m g e ∈ (buildRequests g es n).1 := by
  intro es
  induction es with
  | nil => intro e n h; simp at h
  | cons e0 rest ih =>
    intro e n he
    rw [buildRequests_cons]
    rcases List.mem_cons.mp he with rfl | he
    · exact ⟨n, List.mem_cons_self ..⟩
    · obtain ⟨m, hm⟩ := ih e (n + 1) he
      exact ⟨m, List.mem_cons_of_mem _ hm⟩

theorem buildDeclaredTags_children :
    ∀ (decls : List TagDef) (acc : List Tag) (n : Nat),
      (∀ t ∈ acc, t.children = []) →
      ∀ t ∈ (buildDeclaredTags acc n decls).1, t.children = [] := by
  intro decls
  induction decls with
  | nil => intro acc n hacc t ht; exact hacc t ht
  | cons td rest ih =>
    intro acc n hacc t ht
    rw [buildDeclaredTags] at ht
    by_cases h : ∃ t ∈ acc, t.name = td.name
    · rw [if_pos h] at ht
      exact ih acc n hacc t ht
    · rw [if_neg h] at ht
      refine ih _ _ ?_ t ht
      intro t' ht'
      rcases List.mem_append.mp ht' with h' | h'
      · exact hacc t' h'
      · simp at h'
        subst h'
        rfl

theorem addRequestsTags_no_tags :
    ∀ (rs : List Request) (ts : List Tag) (n : Nat),
      (∀ r ∈ rs, r.tags = []) →
      addRequestsTags ts n rs = (ts, n) := by
  intro rs
  induction rs with
  | nil => intro ts n _; rfl
  | cons r rest ih =>
    intro ts n h
    rw [addRequestsTags]
    rw [h r (List.mem_cons_self ..)]
    exact ih ts n (fun r' hr' => h r' (List.mem_cons_of_mem _ hr'))

theorem addTagName_names (ts : List Tag) (n ruid : Nat) (nm : String) :
    tagNames (addTagName ts n ruid nm).1 =
      if ∃ t ∈ ts, t.name = nm then tagNames ts else tagNames ts ++ [nm] := by
  by_cases h : ∃ t ∈ ts, t.name = nm
  · rw [if_pos h]
    simp only [addTagName, if_pos h, tagNames, List.map_map]
    apply List.map_congr_left
    intro t _
    by_cases ht : t.name = nm
    · simp [ht]
    · simp [ht]
  · rw [if_neg h]
    simp [addTagName, if_neg h, tagNames]

theorem addTagName_names_mem {x : String} {ts : List Tag} (n ruid : Nat) (nm : String)
    (hx : x ∈ tagNames ts) : x ∈ tagNames (addTagName ts n ruid nm).1 := by
  rw [addTagName_names]
  split
  · exact hx
  · exact List.mem_append_left _ hx

theorem addTagName_adds (ts : List Tag) (n ruid : Nat) (nm : String) :
    nm ∈ tagNames (addTagName ts n ruid nm).1 := by
  rw [addTagName_names]
  split
  · rename_i h
    obtain ⟨t, ht, hnm⟩ := h
    exact hnm ▸ List.mem_map_of_mem _ ht
  · simp

theorem addTagName_nodup {ts : List Tag} (n ruid : Nat) (nm : String)
    (h : (tagNames ts).Nodup) : (tagNames (addTagName ts n ruid nm).1).Nodup := by
  rw [addTagName_names]
  split
  · exact h
  · rename_i hno
    simp only [List.nodup_append, List.nodup_cons, List.nodup_nil]
    refine ⟨h, by simp, ?_⟩
    intro x hx
    simp only [List.mem_singleton]
    intro hxnm
    subst hxnm
    obtain ⟨t, ht, hnm⟩ := List.mem_map.mp hx
    exact hno ⟨t, ht, hnm⟩

theorem addTagNames_names_mem {x : String} :
    ∀ (nms : List String) {ts : List Tag} (n ruid : Nat),
      x ∈ tagNames ts → x ∈ tagNames (addTagNames ts n ruid nms).1 := by
  intro nms
  induction nms with
  | nil => intro ts n ruid hx; exact hx
  | cons nm rest ih =>
    intro ts n ruid hx
    exact ih _ _ (addTagName_names_mem n ruid nm hx)

theorem addTagNames_adds {x : String} :
    ∀ (nms : List String) {ts : List Tag} (n ruid : Nat),
      x ∈ nms → x ∈ tagNames (addTagNames ts n ruid nms).1 := by
  intro nms
  induction nms with
  | nil => intro ts n ruid hx; simp at hx
  | cons nm rest ih =>
    intro ts n ruid hx
    rcases List.mem_cons.mp hx with rfl | hx
    · exact addTagNames_names_mem rest _ _ (addTagName_adds ts n ruid x)
    · exact ih _ _ hx

theorem addTagNames_nodup :
    ∀ (nms : List String) {ts : List Tag} (n ruid : Nat),
      (tagNames ts).Nodup → (tagNames (addTagNames ts n ruid nms).1).Nodup := by
  intro nms
  induction nms with
  | nil => intro ts n ruid h; exact h
  | cons nm rest ih =>
    intro ts n ruid h
    exact ih _ _ (addTagName_nodup n ruid nm h)

theorem addRequestsTags_names_mem {x : String} :
    ∀ (rs : List Request) {ts : List Tag} (n : Nat),
      x ∈ tagNames ts → x ∈ tagNames (addRequestsTags ts n rs).1 := by
  intro rs
  induction rs with
  | nil => intro ts n hx; exact hx
  | cons r rest ih =>
    intro ts n hx
    exact ih _ (addTagNames_names_mem r.tags _ _ hx)

theorem addRequestsTags_adds {x : String} :
    ∀ (rs : List Request) {ts : List Tag} (n : Nat) (r : Request),
      r ∈ rs → x ∈ r.tags → x ∈ tagNames (addRequestsTags ts n rs).1 := by
  intro rs
  induction rs with
  | nil => intro ts n r hr; simp at hr
  | cons r0 rest ih =>
    intro ts n r hr hx
    rcases List.mem_cons.mp hr with rfl | hr
    · exact addRequestsTags_names_mem rest _ (addTagNames_adds r.tags _ _ hx)
    · exact ih _ r hr hx

theorem addRequestsTags_nodup :
    ∀ (rs : List Request) {ts : List Tag} (n : Nat),
      (tagNames ts).Nodup → (tagNames (addRequestsTags ts n rs).1).Nodup := by
  intro rs
  induction rs with
  | nil => intro ts n h; exact h
  | cons r rest ih =>
    intro ts n h
    exact ih _ (addTagNames_nodup r.tags _ _ h)

theorem buildDeclaredTags_nodup :
    ∀ (decls : List TagDef) (acc : List Tag) (n : Nat),
      (tagNames acc).Nodup → (tagNames (buildDeclaredTags acc n decls).1).Nodup := by
  intro decls
  induction decls with
  | nil => intro acc n h; exact h
  | cons td rest ih =>
    intro acc n h
    rw [buildDeclaredTags]
    by_cases hex : ∃ t ∈ acc, t.name = td.name
    · rw [if_pos hex]
      exact ih acc n h
    · rw [if_neg hex]
      refine ih _ _ ?_
      simp only [tagNames, List.map_append, List.map_cons, List.map_nil,
        List.nodup_append, List.nodup_cons, List.nodup_nil]
      refine ⟨h, by simp, ?_⟩
      intro x hx
      simp only [List.mem_singleton]
      intro hxnm
      subst hxnm
      obtain ⟨t, ht, hnm⟩ := List.mem_map.mp hx
      exact hex ⟨t, ht, hnm⟩

theorem countP_eq_one_of_nodup_map {α β : Type} [DecidableEq β] (f : α → β) :
    ∀ (l : List α), (l.map f).Nodup → ∀ x ∈ l,
      List.countP (fun y => f y = f x) l = 1 := by
  intro l
  induction l with
  | nil => intro _ x hx; simp at hx
  | cons a t ih =>
    intro hl x hx
    simp only [List.map_cons, List.nodup_cons] at hl
    rcases List.mem_cons.mp hx with rfl | hx
    · rw [List.countP_cons]
      have h0 : List.countP (fun y => decide (f y = f x)) t = 0 := by
        rw [List.countP_eq_zero]
        intro y hy
        simp only [decide_eq_true_eq]
        intro hfy
        exact hl.1 (hfy ▸ List.mem_map_of_mem f hy)
      simp [h0]
    · rw [List.countP_cons]
      have hne : (decide (f a = f x)) = false := by
        simp only [decide_eq_false_iff_not]
        intro hfa
        exact hl.1 (hfa ▸ List.mem_map_of_mem f hx)
      rw [ih hl.2 x hx]
      simp [hne]

theorem importDoc_tags (doc : Doc) (opts : ImportOptions) :
    (importDoc doc opts).tags =
      (addRequestsTags
        (buildDeclaredTags []
          (buildRequests doc.security (opEntries doc.paths)
            (buildServers opts.baseServerURL opts.ambientOrigin
              (opts.servers.getD doc.servers)
              (buildSchemes opts.authentication doc.securitySchemes 0).2).2).2
          doc.tags).1
        (buildDeclaredTags []
          (buildRequests doc.security (opEntries doc.paths)
            (buildServers opts.baseServerURL opts.ambientOrigin
              (opts.servers.getD doc.servers)
              (buildSchemes opts.authentication doc.securitySchemes 0).2).2).2
          doc.tags).2
        (buildRequests doc.security (opEntries doc.paths)
          (buildServers opts.baseServerURL opts.ambientOrigin
            (opts.servers.getD doc.servers)
            (buildSchemes opts.authentication doc.securitySchemes 0).2).2).1).1 := rfl

theorem importDoc_collection_children (doc : Doc) (opts : ImportOptions) :
    (importDoc doc opts).collection.children =
      (importDoc doc opts).tags.map (·.uid) ++
        (((importDoc doc opts).requests.filter (fun r => r.tags.isEmpty)).map (·.uid)) :=
  rfl

theorem mergeParams_append (xs ys : List Param) :
    ∀ acc : List Param,
      mergeParams acc (xs ++ ys) = mergeParams (mergeParams acc xs) ys := by
  induction xs with
  | nil => intro acc; rfl
  | cons x rest ih =>
    intro acc
    rw [List.cons_append, mergeParams, mergeParams, ih]

theorem getElem?_lt_length {α : Type} {l : List α} {i : Nat} {a : α}
    (h : l[i]? = some a) : i < l.length := by
  by_contra hn
  rw [List.getElem?_eq_none (Nat.le_of_not_lt hn)] at h
  exact Option.noConfusion h

theorem mem_of_getElem?_eq_some {α : Type} {l : List α} {i : Nat} {a : α}
    (h : l[i]? = some a) : a ∈ l := by
  obtain ⟨hlt, hget⟩ := List.getElem?_eq_some.mp h
  exact hget ▸ List.getElem_mem _

theorem upsertParam_no_match_step {k : String × String} {e : Param} {p : Param}
    (hp : paramKey p ≠ k) (acc : List Param) (i : Nat)
    (hacc : acc[i]? = some e) (hek : paramKey e = k)
    (hcnt : List.countP (fun q => paramKey q = k) acc = 1) :
    (upsertParam acc p)[i]? = some e ∧
    List.countP (fun q => paramKey q = k) (upsertParam acc p) = 1 := by
  rw [upsertParam]
  by_cases h : ∃ q ∈ acc, paramKey q = paramKey p
  · rw [if_pos h]
    constructor
    · rw [List.getElem?_map, hacc]
      have hne : paramKey e ≠ paramKey p := by
        rw [hek]
        exact fun hc => hp hc.symm
      simp [hne]
    · rw [List.countP_map]
      refine Eq.trans (List.countP_congr ?_) hcnt
      intro q _
      simp only [Function.comp_apply]
      by_cases hq : paramKey q = paramKey p
      · rw [if_pos hq]
        have h1 : (decide (paramKey p = k)) = false := by
          simp only [decide_eq_false_iff_not]
          exact hp
        have h2 : (decide (paramKey q = k)) = false := by
          simp only [decide_eq_false_iff_not]
          rw [hq]
          exact hp
        rw [h1, h2]
      · rw [if_neg hq]
  · rw [if_neg h]
    constructor
    · rw [List.getElem?_append_left (getElem?_lt_length hacc)]
      exact hacc
    · rw [List.countP_append, hcnt]
      have h0 : List.countP (fun q => paramKey q = k) [p] = 0 := by
        simp [hp]
      rw [h0]

theorem mergeParams_no_match {k : String × String} {e : Param} :
    ∀ (ops : List Param) (acc : List Param) (i : Nat),
      (∀ p ∈ ops, paramKey p ≠ k) →
      acc[i]? = some e → paramKey e = k →
      List.countP (fun q => paramKey q = k) acc = 1 →
      (mergeParams acc ops)[i]? = some e ∧
      List.countP (fun q => paramKey q = k) (mergeParams acc ops) = 1 := by
  intro ops
  induction ops with
  | nil => intro acc i _ hacc _ hcnt; exact ⟨hacc, hcnt⟩
  | cons p rest ih =>
    intro acc i hops hacc hek hcnt
    rw [mergeParams]
    obtain ⟨h1, h2⟩ := upsertParam_no_match_step
      (hops p (List.mem_cons_self ..)) acc i hacc hek hcnt
    exact ih _ i (fun p' hp' => hops p' (List.mem_cons_of_mem _ hp')) h1 hek h2

theorem upsertParam_match_step {e p0 : Param} (acc : List Param) (i : Nat)
    (hacc : acc[i]? = some e) (hek : paramKey e = paramKey p0)
    (hcnt : List.countP (fun q => paramKey q = paramKey p0) acc = 1) :
    (upsertParam acc p0)[i]? = some p0 ∧
    List.countP (fun q => paramKey q = paramKey p0) (upsertParam acc p0) = 1 := by
  rw [upsertParam]
  have hex : ∃ q ∈ acc, paramKey q = paramKey p0 :=
    ⟨e, mem_of_getElem?_eq_some hacc, hek⟩
  rw [if_pos hex]
  constructor
  · rw [List.getElem?_map, hacc]
    simp [hek]
  · rw [List.countP_map]
    refine Eq.trans (List.countP_congr ?_) hcnt
    intro q _
    simp only [Function.comp_apply]
    by_cases hq : paramKey q = paramKey p0
    · rw [if_pos hq]
      simp [hq]
    · rw [if_neg hq]

theorem mergeParams_disjoint :
    ∀ (ops : List Param) (acc : List Param),
      (ops.map paramKey).Nodup →
      (∀ p ∈ ops, ∀ q ∈ acc, paramKey q ≠ paramKey p) →
      mergeParams acc ops = acc ++ ops := by
  intro ops
  induction ops with
  | nil => intro acc _ _; simp [mergeParams]
  | cons p rest ih =>
    intro acc hnd hdisj
    rw [mergeParams, upsertParam]
    rw [if_neg ?_]
    · rw [ih (acc ++ [p]) (List.nodup_cons.mp hnd).2 ?_]
      · simp
      · intro p' hp' q hq
        rcases List.mem_append.mp hq with hq | hq
        · exact hdisj p' (List.mem_cons_of_mem _ hp') q hq
        · simp only [List.mem_singleton] at hq
          subst hq
          intro hc
          exact (List.nodup_cons.mp hnd).1 (hc ▸ List.mem_map_of_mem paramKey hp')
    · rintro ⟨q, hq, hqk⟩
      exact hdisj p (List.mem_cons_self ..) q hq hqk

theorem mergeParams_main :
    ∀ (pathPs opPs : List Param) (i : Nat) (q0 p0 : Param),
      (pathPs.map paramKey).Nodup →
      (opPs.map paramKey).Nodup →
      pathPs[i]? = some q0 →
      p0 ∈ opPs →
      paramKey q0 = paramKey p0 →
      List.countP (fun q => paramKey q = paramKey p0) (mergeParams pathPs opPs) = 1 ∧
      (mergeParams pathPs opPs)[i]? = some p0 := by
  intro pathPs opPs i q0 p0 hpath hop hi hp0 hk
  obtain ⟨l1, l2, rfl⟩ := List.append_of_mem hp0
  have hmap : (l1.map paramKey ++ paramKey p0 :: l2.map paramKey).Nodup := by
    simpa using hop
  rw [List.nodup_append] at hmap
  have hl1 : ∀ p ∈ l1, paramKey p ≠ paramKey p0 := by
    intro p hp hc
    exact hmap.2.2 (List.mem_map_of_mem paramKey hp) (hc ▸ List.mem_cons_self ..)
  have hl2 : ∀ p ∈ l2, paramKey p ≠ paramKey p0 := by
    intro p hp hc
    exact (List.nodup_cons.mp hmap.2.1).1 (hc ▸ List.mem_map_of_mem paramKey hp)
  have hcnt0 : List.countP (fun q => paramKey q = paramKey p0) pathPs = 1 := by
    have h1 := countP_eq_one_of_nodup_map paramKey pathPs hpath q0
      (mem_of_getElem?_eq_some hi)
    rw [← hk]
    simpa using h1
  obtain ⟨ha1, ha2⟩ := mergeParams_no_match l1 pathPs i hl1 hi hk hcnt0
  obtain ⟨hb1, hb2⟩ := upsertParam_match_step (mergeParams pathPs l1) i ha1 hk ha2
  rw [mergeParams_append l1 (p0 :: l2) pathPs, mergeParams]
  obtain ⟨hc1, hc2⟩ := mergeParams_no_match l2 (upsertParam (mergeParams pathPs l1) p0)
    i hl2 hb1 rfl hb2
  exact ⟨hc2, hc1⟩

theorem applyAuth_nameKey (auth : Option AuthOptions) (s : Scheme) :
    (applyAuth auth s).nameKey = s.nameKey := by
  cases auth with
  | none => rfl
  | some a => rfl

theorem extractScheme_nameKey (k : String) (d : SchemeDef) (m : Nat) :
    (extractScheme k d m).nameKey = k := by
  cases d <;> rfl

theorem prefillVal_apiKey {a : AuthOptions} {ak : ApiKeyAuth} {w : SchemeVal}
    {nm l v : String} (hak : a.apiKey = some ak)
    (h : prefillVal a w = .apiKey nm l v) : v = ak.token := by
  cases w with
  | apiKey n0 l0 v0 =>
    rw [prefillVal, hak] at h
    exact (SchemeVal.apiKey.injEq .. ▸ h).2.2.symm
  | http sch bf u p t =>
    exfalso
    rw [prefillVal] at h
    repeat' split at h
    all_goals exact SchemeVal.noConfusion h
  | oauth2 flows =>
    exfalso
    rw [prefillVal] at h
    repeat' split at h
    all_goals exact SchemeVal.noConfusion h
  | openIdConnect u =>
    exact SchemeVal.noConfusion h

theorem buildSchemes_cons (auth : Option AuthOptions) (kd : String × SchemeDef)
    (rest : List (String × SchemeDef)) (n : Nat) :
    buildSchemes auth (kd :: rest) n =
      (applyAuth auth (extractScheme kd.1 kd.2 n) :: (buildSchemes auth rest (n + 1)).1,
       (buildSchemes auth rest (n + 1)).2) := rfl

theorem mem_buildSchemes {auth : Option AuthOptions} {s : Scheme} :
    ∀ {decls : List (String × SchemeDef)} {n : Nat},
      s ∈ (buildSchemes auth decls n).1 →
      ∃ kd ∈ decls, ∃ m, s = applyAuth auth (extractScheme kd.1 kd.2 m) := by
  intro decls
  induction decls with
  | nil => intro n h; simp [buildSchemes] at h
  | cons kd rest ih =>
    intro n h
    rw [buildSchemes_cons] at h
    rcases List.mem_cons.mp h with rfl | h
    · exact ⟨kd, List.mem_cons_self .., n, rfl⟩
    · obtain ⟨kd', hkd', m, hm⟩ := ih h
      exact ⟨kd', List.mem_cons_of_mem _ hkd', m, hm⟩

theorem findScheme_buildSchemes (auth : Option AuthOptions) {k : String} {d : SchemeDef} :
    ∀ (decls : List (String × SchemeDef)) (n : Nat),
      (decls.map Prod.fst).Nodup → (k, d) ∈ decls →
      ∃ m, findScheme k (buildSchemes auth decls n).1 =
          some (applyAuth auth (extractScheme k d m)) ∧
        applyAuth auth (extractScheme k d m) ∈ (buildSchemes auth decls n).1 := by
  intro decls
  induction decls with
  | nil => intro n _ h; simp at h
  | cons kd rest ih =>
    intro n hnd hmem
    simp only [buildSchemes_cons, findScheme]
    have hkey : (applyAuth auth (extractScheme kd.1 kd.2 n)).nameKey = kd.1 := by
      rw [applyAuth_nameKey, extractScheme_nameKey]
    by_cases hk : kd.1 = k
    · subst hk
      have hd : kd.2 = d := by
        rcases List.mem_cons.mp hmem with h | h
        · rw [← h]
        · exfalso
          have hin : kd.1 ∈ rest.map Prod.fst :=
            List.mem_map.mpr ⟨(kd.1, d), h, rfl⟩
          rw [List.map_cons, List.nodup_cons] at hnd
          exact hnd.1 hin
      subst hd
      rw [if_pos hkey]
      exact ⟨n, rfl, List.mem_cons_self ..⟩
    · rw [if_neg (by rw [hkey]; exact hk)]
      have hmem' : (k, d) ∈ rest := by
        rcases List.mem_cons.mp hmem with h | h
        · exact absurd (congrArg Prod.fst h.symm) hk
        · exact h
      obtain ⟨m, hfind, hm⟩ :=
        ih (n + 1) (List.nodup_cons.mp (List.map_cons .. ▸ hnd)).2 hmem'
      exact ⟨m, hfind, List.mem_cons_of_mem _ hm⟩

theorem importDoc_selected (doc : Doc) (opts : ImportOptions) :
    (importDoc doc opts).collection.selectedSecuritySchemeUids =
      (if opts.setCollectionSecurity then
        match preferredScheme opts with
        | some k =>
          match findScheme k (buildSchemes opts.authentication doc.securitySchemes 0).1 with
          | some s => [s.uid]
          | none => []
        | none => []
      else []) := rfl

theorem preferredScheme_eq {opts : ImportOptions} {a : AuthOptions}
    (hauth : opts.authentication = some a) :
    preferredScheme opts = a.preferredSecurityScheme := by
  rw [preferredScheme, hauth]

/-- All visited-set entries survive a resolver step. -/
def assignPreserved (st st' : ResolveState) : Prop :=
  ∀ k i, lookupAssign st k = some i → lookupAssign st' k = some i

theorem assignPreserved_refl (st : ResolveState) : assignPreserved st st :=
  fun _ _ h => h

theorem assignPreserved_trans {s1 s2 s3 : ResolveState}
    (h1 : assignPreserved s1 s2) (h2 : assignPreserved s2 s3) :
    assignPreserved s1 s3 :=
  fun k i hk => h2 k i (h1 k i hk)

theorem lookupAssign_mk (a : List (String × Nat)) (n : Nat) (nd : List (Nat × List Nat))
    (k : String) :
    lookupAssign ⟨a, n, nd⟩ k = (a.find? (fun e => e.1 = k)).map (·.2) := rfl

theorem lookupAssign_prepend_same (st : ResolveState) (name : String) (id n2 : Nat)
    (nd : List (Nat × List Nat)) :
    lookupAssign ⟨(name, id) :: st.assign, n2, nd⟩ name = some id := by
  simp [lookupAssign, List.find?_cons]

theorem lookupAssign_prepend_other {st : ResolveState} {k : String} {i : Nat}
    (name : String) (id n2 : Nat) (nd : List (Nat × List Nat))
    (hk : lookupAssign st k = some i) (hnone : lookupAssign st name = none) :
    lookupAssign ⟨(name, id) :: st.assign, n2, nd⟩ k = some i := by
  have hne : (name : String) ≠ k := by
    intro he
    rw [he] at hnone
    rw [hnone] at hk
    exact Option.noConfusion hk
  rw [lookupAssign_mk, List.find?_cons]
  simp only [hne, decide_eq_true_eq, if_neg]
  exact hk

theorem lookupAssign_prepend_preserved {st : ResolveState} (name : String)
    (id n2 : Nat) (nd : List (Nat × List Nat))
    (hnone : lookupAssign st name = none) :
    assignPreserved st ⟨(name, id) :: st.assign, n2, nd⟩ :=
  fun _ _ hk => lookupAssign_prepend_other name id n2 nd hk hnone

/-- The visited-set only grows along resolution. -/
theorem resolveRef_preserves (doc : RefDoc) :
    ∀ fuel name st id st', resolveRef doc fuel name st = some (id, st') →
      assignPreserved st st' := by
  intro fuel
  induction fuel with
  | zero =>
    intro name st id st' h
    rw [resolveRef] at h
    split at h
    · obtain ⟨-, rfl⟩ := Prod.mk.injEq .. ▸ Option.some.injEq .. ▸ h
      exact assignPreserved_refl st
    · exact Option.noConfusion h
  | succ fuel ih =>
    have hq : ∀ cs st ids st',
        resolveChildren (resolveRef doc fuel) cs st = some (ids, st') →
        assignPreserved st st' := by
      intro cs
      induction cs with
      | nil =>
        intro st ids st' h
        rw [resolveChildren] at h
        obtain ⟨-, rfl⟩ := Prod.mk.injEq .. ▸ Option.some.injEq .. ▸ h
        exact assignPreserved_refl st
      | cons c rest ihc =>
        cases c with
        | leaf v =>
          intro st ids st' h
          rw [resolveChildren] at h
          split at h
          · exact Option.noConfusion h
          · rename_i ids0 st2 hr
            obtain ⟨-, rfl⟩ := Prod.mk.injEq .. ▸ Option.some.injEq .. ▸ h
            exact fun k i hk =>
              ihc ⟨st.assign, st.nextId + 1, (st.nextId, []) :: st.nodes⟩
                ids0 st2 hr k i hk
        | ref t =>
          intro st ids st' h
          rw [resolveChildren] at h
          split at h
          · exact Option.noConfusion h
          · rename_i cid st1 hf
            split at h
            · exact Option.noConfusion h
            · rename_i ids0 st2 hr
              obtain ⟨-, rfl⟩ := Prod.mk.injEq .. ▸ Option.some.injEq .. ▸ h
              exact assignPreserved_trans (ih t st cid st1 hf) (ihc _ _ _ hr)
    intro name st id st' h
    rw [resolveRef] at h
    split at h
    · obtain ⟨-, rfl⟩ := Prod.mk.injEq .. ▸ Option.some.injEq .. ▸ h
      exact assignPreserved_refl st
    · rename_i hl
      split at h
      · exact Option.noConfusion h
      · rename_i cids st2 hr
        obtain ⟨-, rfl⟩ := Prod.mk.injEq .. ▸ Option.some.injEq .. ▸ h
        exact assignPreserved_trans
          (lookupAssign_prepend_preserved name st.nextId (st.nextId + 1) st.nodes hl)
          (fun k i hk => hq _ _ _ _ hr k i hk)

/-- Children resolution also only grows the visited-set. -/
theorem resolveChildren_preserves (doc : RefDoc) (fuel : Nat) :
    ∀ (cs : List SchemaChild) (st : ResolveState) (ids : List Nat) (st' : ResolveState),
      resolveChildren (resolveRef doc fuel) cs st = some (ids, st') →
      assignPreserved st st' := by
  intro cs
  induction cs with
  | nil =>
    intro st ids st' h
    rw [resolveChildren] at h
    obtain ⟨-, rfl⟩ := Prod.mk.injEq .. ▸ Option.some.injEq .. ▸ h
    exact assignPreserved_refl st
  | cons c rest ihc =>
    cases c with
    | leaf v =>
      intro st ids st' h
      rw [resolveChildren] at h
      split at h
      · exact Option.noConfusion h
      · rename_i ids0 st2 hr
        obtain ⟨-, rfl⟩ := Prod.mk.injEq .. ▸ Option.some.injEq .. ▸ h
        exact fun k i hk =>
          ihc ⟨st.assign, st.nextId + 1, (st.nextId, []) :: st.nodes⟩ ids0 st2 hr k i hk
    | ref t =>
      intro st ids st' h
      rw [resolveChildren] at h
      split at h
      · exact Option.noConfusion h
      · rename_i cid st1 hf
        split at h
        · exact Option.noConfusion h
        · rename_i ids0 st2 hr
          obtain ⟨-, rfl⟩ := Prod.mk.injEq .. ▸ Option.some.injEq .. ▸ h
          exact assignPreserved_trans
            (resolveRef_preserves doc fuel t st cid st1 hf) (ihc _ _ _ hr)

theorem length_filter_mono {α : Type} (l : List α) (p q : α → Bool)
    (h : ∀ a ∈ l, q a = true → p a = true) :
    (l.filter q).length ≤ (l.filter p).length := by
  induction l with
  | nil => simp
  | cons a t ih =>
    have ih' := ih (fun b hb => h b (List.mem_cons_of_mem _ hb))
    by_cases hqa : q a = true
    · rw [List.filter_cons, List.filter_cons, if_pos hqa,
        if_pos (h a (List.mem_cons_self ..) hqa)]
      simpa using ih'
    · rw [List.filter_cons, if_neg hqa, List.filter_cons]
      by_cases hpa : p a = true
      · rw [if_pos hpa]
        simp only [List.length_cons]
        omega
      · rw [if_neg hpa]
        exact ih'

theorem length_filter_strict {α : Type} (l : List α) (p q : α → Bool) (a : α)
    (ha : a ∈ l) (hpa : p a = true) (hqa : q a = false)
    (h : ∀ b ∈ l, q b = true → p b = true) :
    (l.filter q).length < (l.filter p).length := by
  induction l with
  | nil => simp at ha
  | cons b t ih =>
    rcases List.mem_cons.mp ha with rfl | ha
    · rw [List.filter_cons, List.filter_cons, if_pos hpa, if_neg (by rw [hqa]; simp)]
      have hm := length_filter_mono t p q (fun c hc => h c (List.mem_cons_of_mem _ hc))
      simp only [List.length_cons]
      omega
    · have ih' := ih ha (fun c hc => h c (List.mem_cons_of_mem _ hc))
      rw [List.filter_cons, List.filter_cons]
      by_cases hqb : q b = true
      · rw [if_pos hqb, if_pos (h b (List.mem_cons_self ..) hqb)]
        simpa using ih'
      · rw [if_neg hqb]
        by_cases hpb : p b = true
        · rw [if_pos hpb]
          simp only [List.length_cons]
          omega
        · rw [if_neg hpb]
          exact ih'

theorem unassigned_mono (doc : RefDoc) {st st' : ResolveState}
    (h : assignPreserved st st') :
    (unassignedKeys doc st').length ≤ (unassignedKeys doc st).length := by
  apply length_filter_mono
  intro a _ hq
  rw [Option.isNone_iff_eq_none] at hq ⊢
  cases hl : lookupAssign st a with
  | none => rfl
  | some j =>
    rw [h a j hl] at hq
    exact Option.noConfusion hq

theorem unassigned_strict (doc : RefDoc) {st : ResolveState} {name : String}
    (hnone : lookupAssign st name = none)
    (hmem : name ∈ doc.defs.map Prod.fst) (id n2 : Nat) (nd : List (Nat × List Nat)) :
    (unassignedKeys doc ⟨(name, id) :: st.assign, n2, nd⟩).length <
      (unassignedKeys doc st).length := by
  apply length_filter_strict _ _ _ name (List.mem_dedup.mpr hmem)
  · rw [Option.isNone_iff_eq_none.mpr hnone]
  · rw [lookupAssign_prepend_same st name id n2 nd]
    rfl
  · intro b _ hq
    rw [Option.isNone_iff_eq_none] at hq ⊢
    cases hl : lookupAssign st b with
    | none => rfl
    | some j =>
      rw [lookupAssign_prepend_other name id n2 nd hl hnone] at hq
      exact Option.noConfusion hq

/-- With fuel exceeding the number of unresolved definitions, resolution
always succeeds - in particular it terminates on cyclic documents. -/
theorem resolveRef_suff (doc : RefDoc) :
    ∀ (fuel : Nat) (name : String) (st : ResolveState),
      (unassignedKeys doc st).length < fuel →
      ∃ r, resolveRef doc fuel name st = some r := by
  intro fuel
  induction fuel with
  | zero => intro name st h; exact absurd h (Nat.not_lt_zero _)
  | succ fuel ih =>
    have hq : ∀ (cs : List SchemaChild) (st : ResolveState),
        (unassignedKeys doc st).length < fuel →
        ∃ r, resolveChildren (resolveRef doc fuel) cs st = some r := by
      intro cs
      induction cs with
      | nil => intro st _; exact ⟨([], st), rfl⟩
      | cons c rest ihc =>
        cases c with
        | leaf v =>
          intro st h
          obtain ⟨⟨ids, st2⟩, hr⟩ :=
            ihc ⟨st.assign, st.nextId + 1, (st.nextId, []) :: st.nodes⟩ h
          exact ⟨(st.nextId :: ids, st2), by rw [resolveChildren, hr]⟩
        | ref t =>
          intro st h
          obtain ⟨⟨cid, st1⟩, hf⟩ := ih t st h
          have h1 : (unassignedKeys doc st1).length < fuel :=
            Nat.lt_of_le_of_lt
              (unassigned_mono doc (resolveRef_preserves doc fuel t st cid st1 hf)) h
          obtain ⟨⟨ids, st2⟩, hr⟩ := ihc st1 h1
          refine ⟨(cid :: ids, st2), ?_⟩
          rw [resolveChildren, hf]
          simp only [hr]
    intro name st h
    cases hl : lookupAssign st name with
    | some id => exact ⟨(id, st), by rw [resolveRef, hl]⟩
    | none =>
      by_cases hmem : name ∈ doc.defs.map Prod.fst
      · have hstrict :=
          unassigned_strict doc hl hmem st.nextId (st.nextId + 1) st.nodes
        have h1 : (unassignedKeys doc
            ⟨(name, st.nextId) :: st.assign, st.nextId + 1, st.nodes⟩).length < fuel := by
          omega
        obtain ⟨⟨cids, st2⟩, hr⟩ := hq _ _ h1
        exact ⟨(st.nextId, ⟨st2.assign, st2.nextId, (st.nextId, cids) :: st2.nodes⟩),
          by rw [resolveRef, hl, hr]⟩
      · have hfind : findDef doc.defs name = none := by
          rw [findDef, List.find?_eq_none.mpr ?_]
          · rfl
          · intro e he
            simp only [decide_eq_true_eq]
            intro he1
            exact hmem (he1 ▸ List.mem_map_of_mem Prod.fst he)
        exact ⟨_, by rw [resolveRef, hl, hfind]; exact rfl⟩

/-- The identity returned for a reference is the one registered in the
visited-set. -/
theorem resolveRef_registers (doc : RefDoc) {fuel : Nat} {name : String}
    {st : ResolveState} {id : Nat} {st' : ResolveState}
    (h : resolveRef doc fuel name st = some (id, st')) :
    lookupAssign st' name = some id := by
  cases fuel with
  | zero =>
    rw [resolveRef] at h
    split at h
    · rename_i j hl
      obtain ⟨h1, rfl⟩ := Prod.mk.injEq .. ▸ Option.some.injEq .. ▸ h
      rw [hl, h1]
    · exact Option.noConfusion h
  | succ fuel =>
    rw [resolveRef] at h
    split at h
    · rename_i j hl
      obtain ⟨h1, rfl⟩ := Prod.mk.injEq .. ▸ Option.some.injEq .. ▸ h
      rw [hl, h1]
    · rename_i hl
      split at h
      · exact Option.noConfusion h
      · rename_i cids st2 hr
        obtain ⟨h1, rfl⟩ := Prod.mk.injEq .. ▸ Option.some.injEq .. ▸ h
        have hpre := resolveChildren_preserves doc fuel _ _ _ _ hr
        have hreg : lookupAssign st2 name = some st.nextId :=
          hpre name st.nextId
            (lookupAssign_prepend_same st name st.nextId (st.nextId + 1) st.nodes)
        exact h1 ▸ hreg

-- =========================================================================
-- PART 7: Claim theorems.
-- =========================================================================

/-- C4: OAuth2 scope normalization maps the scope list `['a','b']` to the
mapping from each scope name to the empty description, it is idempotent on
already-normalized mappings, and it is exactly the normalization the flow
extractor applies. -/
theorem normalizeScopes_list_to_mapping_idempotent :
    normalizeScopes (.list ["a", "b"]) = [("a", ""), ("b", "")] ∧
    (∀ x : ScopesInput,
      normalizeScopes (.mapping (normalizeScopes x)) = normalizeScopes x) ∧
    (∀ fd : FlowDef, (extractFlow fd).scopes = normalizeScopes fd.scopes) :=
  ⟨rfl, fun _ => rfl, fun _ => rfl⟩

/-- C10: the `scheme` field of `securityHttpSchema` is lowercased before it
is validated, so any casing of basic or bearer is accepted and normalized to
lowercase; an absent scheme defaults to basic and an absent bearerFormat to
JWT; a value whose lowercase form is neither basic nor bearer is a parse
error. -/
theorem securityHttpSchema_scheme_lowercased :
    parseHttpSchemeField none = some "basic" ∧
    parseBearerFormatField none = "JWT" ∧
    (∀ s : String, lowerString s = "basic" ∨ lowerString s = "bearer" →
      parseHttpSchemeField (some s) = some (lowerString s)) ∧
    (∀ s : String, lowerString s ≠ "basic" → lowerString s ≠ "bearer" →
      parseHttpSchemeField (some s) = none) := by
  refine ⟨rfl, rfl, ?_, ?_⟩
  · intro s h
    simp only [parseHttpSchemeField]
    rw [if_pos h]
  · intro s h1 h2
    simp only [parseHttpSchemeField]
    rw [if_neg (by simp [h1, h2])]

/-- Witness for C10 at concrete inputs. -/
theorem securityHttpSchema_scheme_lowercased_witness :
    parseHttpSchemeField (some "Basic") = some "basic" ∧
    parseHttpSchemeField (some "BEARER") = some "bearer" ∧
    parseHttpSchemeField (some "digest") = none := by
  refine ⟨?_, ?_, ?_⟩
  · have h := securityHttpSchema_scheme_lowercased.2.2.1 "Basic" (Or.inl (by decide))
    rw [show lowerString "Basic" = "basic" from by decide] at h
    exact h
  · have h := securityHttpSchema_scheme_lowercased.2.2.1 "BEARER" (Or.inr (by decide))
    rw [show lowerString "BEARER" = "bearer" from by decide] at h
    exact h
  · exact securityHttpSchema_scheme_lowercased.2.2.2 "digest" (by decide) (by decide)

/-- C9: the import never throws for a navigable input (every object root
yields the success variant), signals the fatal `invalidDocument` error
exactly when the root input is not a navigable object, and an error result
carries only the error kind and no partial entity collections (the error
variant of `ImportResult` has no entity fields by construction). -/
theorem import_invalid_document_only_for_non_object :
    ∀ (v : RawVal) (opts : ImportOptions),
      ((∃ fs, v = .obj fs) → ∃ ws, importSpecToWorkspace v opts = .ok ws) ∧
      ((∀ fs, v ≠ .obj fs) → importSpecToWorkspace v opts = .err .invalidDocument) ∧
      (∀ e, importSpecToWorkspace v opts = .err e → e = .invalidDocument) := by
  intro v opts
  refine ⟨?_, ?_, ?_⟩
  · rintro ⟨fs, rfl⟩
    exact ⟨importDoc (parseDoc fs) opts, rfl⟩
  · intro h
    cases v with
    | obj fs => exact absurd rfl (h fs)
    | null => rfl
    | bool b => rfl
    | num n => rfl
    | str s => rfl
    | arr xs => rfl
  · intro e he
    cases e
    rfl

/-- Witness for C9: an object root imports successfully, a string root is
rejected with `invalidDocument`. -/
theorem import_invalid_document_only_for_non_object_witness :
    (∃ ws, importSpecToWorkspace (.obj []) ⟨none, false, none, none, none⟩ = .ok ws) ∧
    importSpecToWorkspace (.str "oops") ⟨none, false, none, none, none⟩ =
      .err .invalidDocument :=
  ⟨(import_invalid_document_only_for_non_object (.obj []) _).1 ⟨[], rfl⟩,
   (import_invalid_document_only_for_non_object (.str "oops") _).2.1
     (fun _ h => RawVal.noConfusion h)⟩

/-- C2: every imported Request's security list is the operation-level list
whenever the operation declares one (even an empty list or the list holding
the empty requirement object), and the document's global list exactly when
the operation declares none. -/
theorem request_security_operation_overrides_global :
    ∀ (doc : Doc) (opts : ImportOptions) (r : Request),
      r ∈ (importDoc doc opts).requests →
      ∃ p it m op, (p, it) ∈ doc.paths ∧ (m, op) ∈ it.operations ∧
        r.path = p ∧ r.method = m ∧
        (∀ l, op.security = some l → r.security = l) ∧
        (op.security = none → r.security = doc.security) := by
  intro doc opts r hr
  rw [importDoc_requests] at hr
  obtain ⟨e, he, m, rfl⟩ := mem_buildRequests hr
  obtain ⟨pi, hpi, h1, h2, h3⟩ := mem_opEntries he
  refine ⟨pi.1, pi.2, e.method, e.op, hpi, h3, h1, rfl, ?_, ?_⟩
  · intro l hl
    simp [mkRequest, resolveSecurity, hl]
  · intro hl
    simp [mkRequest, resolveSecurity, hl]

/-- Witness for C2: a document whose only operation declares
`security: [{}]` yields a Request whose security is `[{}]`, overriding the
global bearer requirement. -/
theorem request_security_operation_overrides_global_witness :
    ∃ p it m op,
      (p, it) ∈ (Doc.mk "" "" "" [("/t", ⟨[], [("get", ⟨[], some [[]], [], none⟩)]⟩)]
        [] [] [[("bearerAuth", [])]] []).paths ∧
      (m, op) ∈ it.operations ∧
      (Request.mk 0 "/t" "get" [] [[]] [] none).path = p ∧
      (Request.mk 0 "/t" "get" [] [[]] [] none).method = m ∧
      (∀ l, op.security = some l → (Request.mk 0 "/t" "get" [] [[]] [] none).security = l) ∧
      (op.security = none →
        (Request.mk 0 "/t" "get" [] [[]] [] none).security =
          (Doc.mk "" "" "" [("/t", ⟨[], [("get", ⟨[], some [[]], [], none⟩)]⟩)]
            [] [] [[("bearerAuth", [])]] []).security) :=
  request_security_operation_overrides_global
    (Doc.mk "" "" "" [("/t", ⟨[], [("get", ⟨[], some [[]], [], none⟩)]⟩)]
      [] [] [[("bearerAuth", [])]] [])
    ⟨none, false, none, none, none⟩
    (Request.mk 0 "/t" "get" [] [[]] [] none)
    (by decide)

/-- C7: with an explicit `baseServerURL` option and a single relative server
url, the import yields exactly one server whose url is the base followed by
the relative url; in general every relative url (beginning with a slash) is
resolved against the supplied base. -/
theorem relative_server_resolved_against_base :
    ∀ (doc : Doc) (opts : ImportOptions) (b u : String) (vs : List (String × String)),
      opts.servers = none →
      opts.baseServerURL = some b →
      doc.servers = [⟨some u, vs⟩] →
      startsSlash u = true →
      (importDoc doc opts).servers.map (·.url) = [b ++ u] ∧
      (∀ (ambient : Option String) (u' : String), startsSlash u' = true →
        resolveServerUrl (some b) ambient (some u') = b ++ u') := by
  intro doc opts b u vs hs hb hd hu
  constructor
  · rw [importDoc_servers, buildServers_map_url, hs, hb, hd]
    simp only [Option.getD_none, List.map_cons, List.map_nil]
    rw [resolveServerUrl_relative b opts.ambientOrigin hu]
  · intro ambient u' hu'
    exact resolveServerUrl_relative b ambient hu'

/-- Witness for C7 at the spec's concrete input. -/
theorem relative_server_resolved_against_base_witness :
    (importDoc (Doc.mk "" "" "" [] [] [⟨some "/api/v1", []⟩] [] [])
      ⟨none, false, some "https://scalar.com", none, none⟩).servers.map (·.url) =
      ["https://scalar.com/api/v1"] := by
  have h := (relative_server_resolved_against_base
    (Doc.mk "" "" "" [] [] [⟨some "/api/v1", []⟩] [] [])
    ⟨none, false, some "https://scalar.com", none, none⟩
    "https://scalar.com" "/api/v1" [] rfl rfl rfl (by decide)).1
  rw [show ("https://scalar.com" ++ "/api/v1" : String) = "https://scalar.com/api/v1"
    from by decide] at h
  exact h

/-- C8: a document whose only path item holds a single operation with no
tags yields exactly one Request, whose identifier appears in the Collection
root's children and in no Tag's children. -/
theorem untagged_request_under_collection_root :
    ∀ (doc : Doc) (opts : ImportOptions) (p : String) (it : PathItem)
      (m : String) (op : Operation),
      doc.paths = [(p, it)] →
      it.operations = [(m, op)] →
      op.tags = [] →
      ∃ r, (importDoc doc opts).requests = [r] ∧
        r.uid ∈ (importDoc doc opts).collection.children ∧
        ∀ t ∈ (importDoc doc opts).tags, r.uid ∉ t.children := by
  intro doc opts p it m op hp hop htags
  simp only [importDoc, hp]
  have hentries : opEntries [(p, it)] = [⟨p, it, m, op⟩] := by
    simp [opEntries, pathOpEntries, hop]
  rw [hentries]
  simp only [buildRequests]
  set n0 := (buildServers opts.baseServerURL opts.ambientOrigin
    (opts.servers.getD doc.servers)
    (buildSchemes opts.authentication doc.securitySchemes 0).2).2 with hn0
  have hrtags : (mkRequest n0 doc.security ⟨p, it, m, op⟩).tags = [] := htags
  rw [addRequestsTags_no_tags _ _ _ (by
    intro r hr
    simp at hr
    subst hr
    exact hrtags)]
  refine ⟨mkRequest n0 doc.security ⟨p, it, m, op⟩, rfl, ?_, ?_⟩
  · simp [List.filter, hrtags]
  · intro t ht
    have hch := buildDeclaredTags_children doc.tags [] _
      (by intro t' ht'; simp at ht') t ht
    simp [hch]

/-- Witness for C8: a one-operation untagged document. -/
theorem untagged_request_under_collection_root_witness :
    ∃ r, (importDoc
        (Doc.mk "" "" "" [("/t", ⟨[], [("get", ⟨[], none, [], none⟩)]⟩)] [] [] [] [])
        ⟨none, false, none, none, none⟩).requests = [r] ∧
      r.uid ∈ (importDoc
        (Doc.mk "" "" "" [("/t", ⟨[], [("get", ⟨[], none, [], none⟩)]⟩)] [] [] [] [])
        ⟨none, false, none, none, none⟩).collection.children ∧
      ∀ t ∈ (importDoc
        (Doc.mk "" "" "" [("/t", ⟨[], [("get", ⟨[], none, [], none⟩)]⟩)] [] [] [] [])
        ⟨none, false, none, none, none⟩).tags, r.uid ∉ t.children :=
  untagged_request_under_collection_root
    (Doc.mk "" "" "" [("/t", ⟨[], [("get", ⟨[], none, [], none⟩)]⟩)] [] [] [] [])
    ⟨none, false, none, none, none⟩ "/t" ⟨[], [("get", ⟨[], none, [], none⟩)]⟩
    "get" ⟨[], none, [], none⟩ rfl rfl rfl

/-- C5: a tag name referenced by some operation but absent from the declared
tags list yields exactly one Tag entity with that name, that Tag is
reachable from the Collection root, and no tag name maps to two distinct
Tag identifiers. -/
theorem tag_names_unique_and_reachable :
    ∀ (doc : Doc) (opts : ImportOptions) (nm : String),
      (∃ pi ∈ doc.paths, ∃ mo ∈ pi.2.operations, nm ∈ mo.2.tags) →
      nm ∉ doc.tags.map (·.name) →
      List.countP (fun t => t.name = nm) (importDoc doc opts).tags = 1 ∧
      (∃ t ∈ (importDoc doc opts).tags, t.name = nm ∧
        t.uid ∈ (importDoc doc opts).collection.children) ∧
      ((importDoc doc opts).tags.map (·.name)).Nodup := by
  intro doc opts nm href _hundecl
  obtain ⟨pi, hpi, mo, hmo, hnm⟩ := href
  obtain ⟨m, hmem⟩ := buildRequests_complete doc.security
    (opEntries doc.paths) ⟨pi.1, pi.2, mo.1, mo.2⟩
    (buildServers opts.baseServerURL opts.ambientOrigin
      (opts.servers.getD doc.servers)
      (buildSchemes opts.authentication doc.securitySchemes 0).2).2
    (opEntries_complete doc.paths pi mo hpi hmo)
  have hrtags : (mkRequest m doc.security ⟨pi.1, pi.2, mo.1, mo.2⟩).tags =
    mo.2.tags := rfl
  have hmemnm : nm ∈ tagNames (importDoc doc opts).tags := by
    rw [importDoc_tags]
    exact addRequestsTags_adds _ _ _ hmem (by rw [hrtags]; exact hnm)
  have hnodup : (tagNames (importDoc doc opts).tags).Nodup := by
    rw [importDoc_tags]
    exact addRequestsTags_nodup _ _
      (buildDeclaredTags_nodup doc.tags [] _ (by simp [tagNames]))
  obtain ⟨t, ht, htnm⟩ := List.mem_map.mp hmemnm
  refine ⟨?_, ⟨t, ht, htnm, ?_⟩, hnodup⟩
  · have h1 := countP_eq_one_of_nodup_map (fun t : Tag => t.name)
      (importDoc doc opts).tags hnodup t ht
    rw [← htnm]
    simpa using h1
  · rw [importDoc_collection_children]
    exact List.mem_append_left _ (List.mem_map_of_mem _ ht)

/-- Witness for C5: an operation referencing an undeclared tag name. -/
theorem tag_names_unique_and_reachable_witness :
    List.countP (fun t => t.name = "undeclared")
      (importDoc
        (Doc.mk "" "" ""
          [("/t", ⟨[], [("get", ⟨["undeclared"], none, [], none⟩)]⟩)] [] [] [] [])
        ⟨none, false, none, none, none⟩).tags = 1 ∧
    (∃ t ∈ (importDoc
        (Doc.mk "" "" ""
          [("/t", ⟨[], [("get", ⟨["undeclared"], none, [], none⟩)]⟩)] [] [] [] [])
        ⟨none, false, none, none, none⟩).tags, t.name = "undeclared" ∧
      t.uid ∈ (importDoc
        (Doc.mk "" "" ""
          [("/t", ⟨[], [("get", ⟨["undeclared"], none, [], none⟩)]⟩)] [] [] [] [])
        ⟨none, false, none, none, none⟩).collection.children) ∧
    ((importDoc
        (Doc.mk "" "" ""
          [("/t", ⟨[], [("get", ⟨["undeclared"], none, [], none⟩)]⟩)] [] [] [] [])
        ⟨none, false, none, none, none⟩).tags.map (·.name)).Nodup :=
  tag_names_unique_and_reachable
    (Doc.mk "" "" ""
      [("/t", ⟨[], [("get", ⟨["undeclared"], none, [], none⟩)]⟩)] [] [] [] [])
    ⟨none, false, none, none, none⟩ "undeclared"
    (by decide) (by decide)

/-- C3: each Request's parameter list is the merge of the path-level and
operation-level parameters; the merge appends operation parameters to the
path parameters in declared order when no (name, location) key is shared,
and when a key is shared the merged list holds exactly one entry for it,
carrying the operation-level fields, at the path-level entry's original
position. -/
theorem mergeParams_operation_overrides_in_place :
    (∀ (doc : Doc) (opts : ImportOptions) (r : Request),
      r ∈ (importDoc doc opts).requests →
      ∃ pi ∈ doc.paths, ∃ mo ∈ pi.2.operations,
        r.parameters = mergeParams pi.2.parameters mo.2.parameters) ∧
    (∀ (pathPs opPs : List Param),
      (opPs.map paramKey).Nodup →
      (∀ p ∈ opPs, ∀ q ∈ pathPs, paramKey q ≠ paramKey p) →
      mergeParams pathPs opPs = pathPs ++ opPs) ∧
    (∀ (pathPs opPs : List Param) (i : Nat) (q0 p0 : Param),
      (pathPs.map paramKey).Nodup →
      (opPs.map paramKey).Nodup →
      pathPs[i]? = some q0 →
      p0 ∈ opPs →
      paramKey q0 = paramKey p0 →
      List.countP (fun q => paramKey q = paramKey p0) (mergeParams pathPs opPs) = 1 ∧
      (mergeParams pathPs opPs)[i]? = some p0) := by
  refine ⟨?_, ?_, mergeParams_main⟩
  · intro doc opts r hr
    rw [importDoc_requests] at hr
    obtain ⟨e, he, m, rfl⟩ := mem_buildRequests hr
    obtain ⟨pi, hpi, h1, h2, h3⟩ := mem_opEntries he
    refine ⟨pi, hpi, (e.method, e.op), h3, ?_⟩
    have hp : (mkRequest m doc.security e).parameters =
      mergeParams e.item.parameters e.op.parameters := rfl
    rw [hp, h2]
  · intro pathPs opPs hnd hdisj
    exact mergeParams_disjoint opPs pathPs hnd hdisj

/-- Witness for C3 at a concrete shared (name, location) key. -/
theorem mergeParams_operation_overrides_in_place_witness :
    List.countP
      (fun q => paramKey q = paramKey (Param.mk "id" "path" false "operation level"))
      (mergeParams
        [Param.mk "id" "path" true "", Param.mk "x" "query" false ""]
        [Param.mk "id" "path" false "operation level"]) = 1 ∧
    (mergeParams
      [Param.mk "id" "path" true "", Param.mk "x" "query" false ""]
      [Param.mk "id" "path" false "operation level"])[0]? =
      some (Param.mk "id" "path" false "operation level") :=
  mergeParams_operation_overrides_in_place.2.2
    [Param.mk "id" "path" true "", Param.mk "x" "query" false ""]
    [Param.mk "id" "path" false "operation level"] 0
    (Param.mk "id" "path" true "") (Param.mk "id" "path" false "operation level")
    (by decide) (by decide) (by decide) (by decide) (by decide)

/-- C6: a supplied apiKey token is copied into the value slot of every
declared apiKey scheme (in particular the one keyed `apiKeyHeader`), and
when `setCollectionSecurity` is set with that scheme preferred, the
Collection's selected security scheme list is exactly that scheme's uid. -/
theorem apiKey_prefill_and_collection_security :
    ∀ (doc : Doc) (opts : ImportOptions) (a : AuthOptions) (ak : ApiKeyAuth)
      (knm descr nm loc : String),
      opts.authentication = some a →
      a.apiKey = some ak →
      (knm, SchemeDef.apiKey descr nm loc) ∈ doc.securitySchemes →
      (doc.securitySchemes.map Prod.fst).Nodup →
      (∀ s ∈ (importDoc doc opts).securitySchemes,
        ∀ n l v, s.val = .apiKey n l v → v = ak.token) ∧
      (∃ s ∈ (importDoc doc opts).securitySchemes,
        s.nameKey = knm ∧ s.val = .apiKey nm loc ak.token ∧
        (opts.setCollectionSecurity = true →
          a.preferredSecurityScheme = some knm →
          (importDoc doc opts).collection.selectedSecuritySchemeUids = [s.uid])) := by
  intro doc opts a ak knm descr nm loc hauth hak hmem hnd
  constructor
  · intro s hs n l v hval
    rw [importDoc_schemes] at hs
    obtain ⟨kd, -, m, rfl⟩ := mem_buildSchemes hs
    rw [hauth] at hval
    have hv : (applyAuth (some a) (extractScheme kd.1 kd.2 m)).val =
        prefillVal a (extractScheme kd.1 kd.2 m).val := rfl
    rw [hv] at hval
    exact prefillVal_apiKey hak hval
  · obtain ⟨m, hfind, hmem'⟩ := findScheme_buildSchemes opts.authentication
      doc.securitySchemes 0 hnd hmem
    refine ⟨applyAuth opts.authentication
      (extractScheme knm (SchemeDef.apiKey descr nm loc) m),
      by rw [importDoc_schemes]; exact hmem', ?_, ?_, ?_⟩
    · rw [applyAuth_nameKey, extractScheme_nameKey]
    · rw [hauth]
      show prefillVal a (.apiKey nm loc "") = SchemeVal.apiKey nm loc ak.token
      rw [prefillVal, hak]
    · intro hset hpref
      rw [importDoc_selected, if_pos hset, preferredScheme_eq hauth, hpref]
      simp only [hfind]

/-- Witness for C6: one declared apiKey scheme keyed `apiKeyHeader` with the
supplied token `k` and collection security selection. -/
theorem apiKey_prefill_and_collection_security_witness :
    (∀ s ∈ (importDoc
        (Doc.mk "" "" "" [] [] [] []
          [("apiKeyHeader", SchemeDef.apiKey "" "X-API-Key" "header")])
        ⟨some ⟨some ⟨"k"⟩, none, none, some "apiKeyHeader"⟩, true, none, none, none⟩
      ).securitySchemes,
      ∀ n l v, s.val = .apiKey n l v → v = (ApiKeyAuth.mk "k").token) ∧
    (∃ s ∈ (importDoc
        (Doc.mk "" "" "" [] [] [] []
          [("apiKeyHeader", SchemeDef.apiKey "" "X-API-Key" "header")])
        ⟨some ⟨some ⟨"k"⟩, none, none, some "apiKeyHeader"⟩, true, none, none, none⟩
      ).securitySchemes,
      s.nameKey = "apiKeyHeader" ∧
      s.val = .apiKey "X-API-Key" "header" (ApiKeyAuth.mk "k").token ∧
      ((⟨some ⟨some ⟨"k"⟩, none, none, some "apiKeyHeader"⟩, true, none, none, none⟩ :
          ImportOptions).setCollectionSecurity = true →
        (AuthOptions.mk (some ⟨"k"⟩) none none
            (some "apiKeyHeader")).preferredSecurityScheme = some "apiKeyHeader" →
        (importDoc
          (Doc.mk "" "" "" [] [] [] []
            [("apiKeyHeader", SchemeDef.apiKey "" "X-API-Key" "header")])
          ⟨some ⟨some ⟨"k"⟩, none, none, some "apiKeyHeader"⟩, true, none, none, none⟩
        ).collection.selectedSecuritySchemeUids = [s.uid])) :=
  apiKey_prefill_and_collection_security
    (Doc.mk "" "" "" [] [] [] []
      [("apiKeyHeader", SchemeDef.apiKey "" "X-API-Key" "header")])
    ⟨some ⟨some ⟨"k"⟩, none, none, some "apiKeyHeader"⟩, true, none, none, none⟩
    ⟨some ⟨"k"⟩, none, none, some "apiKeyHeader"⟩ ⟨"k"⟩
    "apiKeyHeader" "" "X-API-Key" "header"
    rfl rfl (by decide) (by decide)

/-- C1: reference resolution terminates on every document, cyclic ones
included - fuel one more than the number of definitions always suffices,
and the resolved reference is registered in the visited-set under its
identity; moreover any dereference of an already-registered reference (the
re-entrant case during a cycle) returns the registered identity unchanged,
never a fresh expansion. -/
theorem resolveRef_cycle_safe :
    ∀ (doc : RefDoc) (name : String),
      (∃ id st', resolveRef doc (doc.defs.length + 1) name initResolveState =
          some (id, st') ∧ lookupAssign st' name = some id) ∧
      (∀ (fuel : Nat) (st : ResolveState) (id : Nat),
        lookupAssign st name = some id →
        resolveRef doc fuel name st = some (id, st)) := by
  intro doc name
  constructor
  · have h1 : (unassignedKeys doc initResolveState).length ≤
        (doc.defs.map Prod.fst).dedup.length := List.length_filter_le ..
    have h2 : (doc.defs.map Prod.fst).dedup.length ≤
        (doc.defs.map Prod.fst).length := (List.dedup_sublist _).length_le
    have h3 : (doc.defs.map Prod.fst).length = doc.defs.length := List.length_map ..
    obtain ⟨⟨id, st'⟩, hr⟩ :=
      resolveRef_suff doc (doc.defs.length + 1) name initResolveState (by omega)
    exact ⟨id, st', hr, resolveRef_registers doc hr⟩
  · intro fuel st id hl
    cases fuel with
    | zero => rw [resolveRef, hl]
    | succ fuel => rw [resolveRef, hl]

/-- Witness for C1: a directly self-referencing schema - the re-entrant
dereference of an already-registered cyclic reference returns the same
identity with the state unchanged, and resolution of the cyclic document
from scratch succeeds. -/
theorem resolveRef_cycle_safe_witness :
    resolveRef (RefDoc.mk [("a", [SchemaChild.ref "a"])]) 5 "a"
      ⟨[("a", 7)], 8, []⟩ = some (7, ⟨[("a", 7)], 8, []⟩) ∧
    (∃ id st', resolveRef (RefDoc.mk [("a", [SchemaChild.ref "a"])]) 2 "a"
        initResolveState = some (id, st') ∧ lookupAssign st' "a" = some id) :=
  ⟨(resolveRef_cycle_safe (RefDoc.mk [("a", [SchemaChild.ref "a"])]) "a").2 5
      ⟨[("a", 7)], 8, []⟩ 7 (by decide),
    (resolveRef_cycle_safe (RefDoc.mk [("a", [SchemaChild.ref "a"])]) "a").1⟩

end ScalarImport
